import Mathlib

/-!
Formal model of `src/solver/quantum.py` from the Quantum-Docking repository.

The Python module implements a variational hybrid optimization loop:
a cost model over bitstrings and graphs (`get_cost`, `get_avg_cost`),
a parameter codec inside `quantum_loop` (the `astype(int)` / `reshape` step),
a multi-start driver `VQAA` selecting the best restart via `np.argmin`,
and a solution extractor in `solver_VQAA` that sorts the sampled counts by
descending frequency and decodes the top bitstrings into register ids.

The external collaborators (pulser sequences, the qutip emulator, scipy
minimize) are out of scope; the model covers the arithmetic, selection and
decoding logic that the module itself performs, with Python failures
(numpy shape mismatches, ZeroDivisionError, IndexError, ValueError) made
explicit through an error type.
-/

namespace QuantumDocking

instance exceptDecEq {ε α : Type} [DecidableEq ε] [DecidableEq α] :
    DecidableEq (Except ε α) := fun x y =>
  match x, y with
  | .ok a, .ok b =>
    if h : a = b then .isTrue (by rw [h]) else .isFalse (by intro hc; cases hc; exact h rfl)
  | .error a, .error b =>
    if h : a = b then .isTrue (by rw [h]) else .isFalse (by intro hc; cases hc; exact h rfl)
  | .ok _, .error _ => .isFalse (by intro hc; cases hc)
  | .error _, .ok _ => .isFalse (by intro hc; cases hc)

/-- Runtime errors the Python code can raise, together with the two error
names used by the specification (EmptyDistributionError, NoConvergenceError)
so that statements about them can be expressed.  The Python module itself
only ever produces the first four. -/
inductive PyErr where
  | shapeError
  | zeroDivisionError
  | indexError
  | valueError
  | emptyDistributionError
  | noConvergenceError
  deriving DecidableEq

/-- An undirected graph on nodes `0 .. n-1`, given by its node count and an
edge list, mirroring the networkx graph consumed by `get_cost`. -/
structure Graph where
  n : ℕ
  edges : List (ℕ × ℕ)
  deriving DecidableEq

/-- Entry `(i, j)` of the adjacency matrix `nx.adjacency_matrix(G)`:
`1` when the undirected edge is present, else `0`. -/
def adjEntry (G : Graph) (i j : ℕ) : ℤ :=
  if (i, j) ∈ G.edges ∨ (j, i) ∈ G.edges then 1 else 0

/-- Entry `(i, j)` of `np.triu(A)`: the upper triangle (diagonal included)
of the adjacency matrix. -/
def triuEntry (G : Graph) (i j : ℕ) : ℤ :=
  if i ≤ j then adjEntry G i j else 0

/-- The integer value of bit `i` of the bitstring `z`
(`z = np.array(list(bitstring), dtype=int)`). -/
def bitOf (z : List Bool) (i : ℕ) : ℤ :=
  if z.getD i false then 1 else 0

/-- The quadratic form `z.T @ np.triu(A) @ z` computed by `get_cost`. -/
def quadForm (z : List Bool) (G : Graph) : ℤ :=
  ∑ i ∈ Finset.range G.n, ∑ j ∈ Finset.range G.n,
    bitOf z i * triuEntry G i j * bitOf z j

/-- The value `penalty * (z.T @ np.triu(A) @ z) - np.sum(z)` returned by
`get_cost` on a well-shaped bitstring. -/
def costVal (z : List Bool) (G : Graph) (penalty : ℤ) : ℤ :=
  penalty * quadForm z G - (z.count true : ℤ)

/-- Model of `get_cost(bitstring, G, penalty)`.  The matrix products
`z.T @ np.triu(A) @ z` require `len(z) == n`; numpy raises a dimension
mismatch error (a shape error) otherwise, and the function performs no
other bounds checking. -/
def get_cost (bitstring : List Bool) (G : Graph) (penalty : ℤ) : Except PyErr ℤ :=
  if bitstring.length = G.n then
    .ok (costVal bitstring G penalty)
  else
    .error .shapeError

/-- Helper lemma: a bitstring of all-zero bits has every bit value `0`. -/
theorem bitOf_eq_zero_of_all_false {z : List Bool} (h : ∀ b ∈ z, b = false) (i : ℕ) :
    bitOf z i = 0 := by
  unfold bitOf
  suffices hz : z.getD i false = false by rw [hz]; simp
  induction z generalizing i with
  | nil => simp
  | cons c cs ih =>
    cases i with
    | zero => simpa using h c (List.mem_cons_self c cs)
    | succ j =>
      rw [List.getD_cons_succ]
      exact ih (fun b hb => h b (List.mem_cons_of_mem c hb)) j

/-- Helper lemma: with no edges, every upper-triangular adjacency entry is zero. -/
theorem triuEntry_eq_zero_of_no_edges {G : Graph} (h : G.edges = []) (i j : ℕ) :
    triuEntry G i j = 0 := by
  unfold triuEntry adjEntry
  rw [h]
  simp

/-- C1: on every bitstring whose length equals the node count, `get_cost`
returns `penalty * (z^T . A_upper . z) - sum(z)`; when the graph has no
edges the result is `-sum(z)`; and on an all-zeros bitstring the result
is `0` for every graph and penalty. -/
theorem C1_get_cost_formula (z : List Bool) (G : Graph) (p : ℤ)
    (hz : z.length = G.n) :
    get_cost z G p = .ok (p * quadForm z G - (z.count true : ℤ))
    ∧ (G.edges = [] → get_cost z G p = .ok (-(z.count true : ℤ)))
    ∧ ((∀ b ∈ z, b = false) → get_cost z G p = .ok 0) := by
  have hmain : get_cost z G p = .ok (p * quadForm z G - (z.count true : ℤ)) := by
    simp [get_cost, costVal, hz]
  refine ⟨hmain, ?_, ?_⟩
  · intro he
    have hq : quadForm z G = 0 := by
      unfold quadForm
      simp [triuEntry_eq_zero_of_no_edges he]
    rw [hmain, hq]
    simp
  · intro hall
    have hq : quadForm z G = 0 := by
      unfold quadForm
      simp [bitOf_eq_zero_of_all_false hall]
    have hc : z.count true = 0 := by
      refine List.count_eq_zero.mpr ?_
      intro hmem
      simpa using hall true hmem
    rw [hmain, hq, hc]
    simp

/-- Witness for C1 at a concrete input: the 2-node single-edge graph with
penalty 10 gives cost 8 on "11", and the all-zeros bitstring gives 0. -/
theorem C1_witness :
    get_cost [true, true] ⟨2, [(0, 1)]⟩ 10 = .ok 8
    ∧ get_cost [false, false] ⟨2, [(0, 1)]⟩ 10 = .ok 0 := by
  have h1 := C1_get_cost_formula [true, true] ⟨2, [(0, 1)]⟩ 10 rfl
  have h2 := C1_get_cost_formula [false, false] ⟨2, [(0, 1)]⟩ 10 rfl
  exact ⟨h1.1.trans (by decide), h2.2.2 (by decide)⟩

/-- C8: `get_cost` fails with a shape error exactly when the bitstring
length differs from the node count, and succeeds (no other bounds
checking) whenever the lengths agree. -/
theorem C8_get_cost_shape (z : List Bool) (G : Graph) (p : ℤ) :
    (z.length ≠ G.n → get_cost z G p = .error .shapeError)
    ∧ (z.length = G.n → ∃ v, get_cost z G p = .ok v) := by
  constructor
  · intro h
    simp [get_cost, h]
  · intro h
    exact ⟨costVal z G p, by simp [get_cost, h]⟩

/-- Witness for C8: a length-1 bitstring against a 2-node graph signals the
shape error, while a length-2 bitstring succeeds. -/
theorem C8_witness :
    get_cost [true] ⟨2, [(0, 1)]⟩ 10 = .error .shapeError
    ∧ ∃ v, get_cost [true, false] ⟨2, [(0, 1)]⟩ 10 = .ok v := by
  have h1 := C8_get_cost_shape [true] ⟨2, [(0, 1)]⟩ 10
  have h2 := C8_get_cost_shape [true, false] ⟨2, [(0, 1)]⟩ 10
  exact ⟨h1.1 (by decide), h2.2 rfl⟩

/-- Weighted per-key terms of the numerator of `get_avg_cost`:
`counts[key] * get_cost(key, G, penalty_term)` for each key in order.
Python evaluates the whole generator sum first, so the first key whose
`get_cost` raises aborts the computation with that error. -/
def keyCosts (G : Graph) (p : ℤ) : List (List Bool × ℚ) → Except PyErr (List ℚ)
  | [] => .ok []
  | kc :: rest =>
    match get_cost kc.1 G p with
    | .error e => .error e
    | .ok v =>
      match keyCosts G p rest with
      | .error e => .error e
      | .ok l => .ok (kc.2 * (v : ℚ) :: l)

/-- The total sample count `sum(counts.values())`. -/
def totalCount (counts : List (List Bool × ℚ)) : ℚ :=
  (counts.map (fun kc => kc.2)).sum

/-- The value produced by the final division of `get_avg_cost`: a finite
number, or the nan / infinities that numpy true division returns (with a
RuntimeWarning, not an exception) when an `np.int64` numerator is divided
by a zero total. -/
inductive PyVal where
  | num : ℚ → PyVal
  | nan : PyVal
  | posInf : PyVal
  | negInf : PyVal
  deriving DecidableEq

/-- Model of `get_avg_cost(counts, G, penalty_term)`: the numerator sum is
computed first, then divided by the total count.  On an empty dict both
sums are plain Python ints, so `0 / 0` raises ZeroDivisionError.  On a
non-empty dict the numerator is an `np.int64` (each term multiplies a count
by the numpy scalar returned by `get_cost`), so a zero total goes through
numpy true division, which emits a RuntimeWarning and returns nan when the
numerator is zero and a signed infinity otherwise; there is no dedicated
empty distribution check anywhere in the code. -/
def get_avg_cost (counts : List (List Bool × ℚ)) (G : Graph) (p : ℤ) :
    Except PyErr PyVal :=
  match keyCosts G p counts with
  | .error e => .error e
  | .ok l =>
    match counts with
    | [] => .error .zeroDivisionError
    | _ :: _ =>
      if totalCount counts = 0 then
        if l.sum = 0 then .ok .nan
        else if 0 < l.sum then .ok .posInf
        else .ok .negInf
      else .ok (.num (l.sum / totalCount counts))

/-- Helper lemma: when every key has the right length, `keyCosts` succeeds and
returns the weighted cost of each key. -/
theorem keyCosts_ok (counts : List (List Bool × ℚ)) (G : Graph) (p : ℤ)
    (h : ∀ kc ∈ counts, kc.1.length = G.n) :
    keyCosts G p counts =
      .ok (counts.map fun kc => kc.2 * ((costVal kc.1 G p : ℤ) : ℚ)) := by
  induction counts with
  | nil => rfl
  | cons kc rest ih =>
    have h1 : kc.1.length = G.n := h kc (List.mem_cons_self kc rest)
    have h2 := ih (fun x hx => h x (List.mem_cons_of_mem kc hx))
    simp [keyCosts, get_cost, h1, h2]

/-- Helper lemma: on a distribution with valid keys and nonzero total,
`get_avg_cost` returns the weighted sum of costs divided by the total. -/
theorem get_avg_cost_eq (counts : List (List Bool × ℚ)) (G : Graph) (p : ℤ)
    (hlen : ∀ kc ∈ counts, kc.1.length = G.n) (hne : totalCount counts ≠ 0) :
    get_avg_cost counts G p =
      .ok (.num ((counts.map fun kc => kc.2 * ((costVal kc.1 G p : ℤ) : ℚ)).sum
        / totalCount counts)) := by
  unfold get_avg_cost
  rw [keyCosts_ok counts G p hlen]
  cases counts with
  | nil => exact absurd (by simp [totalCount]) hne
  | cons kc rest => simp [hne]

/-- C2: on every distribution whose keys match the node count and whose
total count is positive, `get_avg_cost` is the frequency-weighted mean of
the per-key costs, normalized by the total count; in particular for the
2-node one-edge graph, penalty 10 and counts 500/500 on "00"/"11" the
result is exactly 4. -/
theorem C2_get_avg_cost_mean (counts : List (List Bool × ℚ)) (G : Graph) (p : ℤ)
    (hlen : ∀ kc ∈ counts, kc.1.length = G.n) (hpos : 0 < totalCount counts) :
    get_avg_cost counts G p =
      .ok (.num ((counts.map fun kc => kc.2 * ((costVal kc.1 G p : ℤ) : ℚ)).sum
        / totalCount counts))
    ∧ get_avg_cost [([false, false], 500), ([true, true], 500)] ⟨2, [(0, 1)]⟩ 10
        = .ok (.num 4) := by
  constructor
  · exact get_avg_cost_eq counts G p hlen (ne_of_gt hpos)
  · rw [get_avg_cost_eq [([false, false], 500), ([true, true], 500)]
      ⟨2, [(0, 1)]⟩ 10 (by decide) (by norm_num [totalCount])]
    have e1 : costVal [false, false] ⟨2, [(0, 1)]⟩ 10 = 0 := by decide
    have e2 : costVal [true, true] ⟨2, [(0, 1)]⟩ 10 = 8 := by decide
    norm_num [e1, e2, totalCount]

/-- Witness for C2: the end-to-end scenario of the specification evaluated
through the theorem. -/
theorem C2_witness :
    get_avg_cost [([false, false], 500), ([true, true], 500)] ⟨2, [(0, 1)]⟩ 10
      = .ok (.num 4) :=
  (C2_get_avg_cost_mean [([false, false], 500), ([true, true], 500)]
    ⟨2, [(0, 1)]⟩ 10 (by decide) (by norm_num [totalCount])).2

/-- C4 counterexample: on the empty distribution `get_avg_cost` divides by
the zero total and fails with ZeroDivisionError, which is not the
EmptyDistributionError the claim requires. -/
theorem C4_counterexample :
    get_avg_cost [] ⟨2, [(0, 1)]⟩ 10 = .error .zeroDivisionError
    ∧ get_avg_cost [] ⟨2, [(0, 1)]⟩ 10 ≠ .error .emptyDistributionError := by
  constructor
  · rfl
  · intro h
    cases h

/-- Helper lemma: a list of non-negative rationals has a non-negative sum. -/
theorem list_sum_nonneg : ∀ (l : List ℚ), (∀ q ∈ l, 0 ≤ q) → 0 ≤ l.sum := by
  intro l
  induction l with
  | nil => intro _; simp
  | cons a rest ih =>
    intro h
    have hrest := ih (fun x hx => h x (List.mem_cons_of_mem a hx))
    have ha := h a (List.mem_cons_self a rest)
    simp only [List.sum_cons]
    linarith

/-- Helper lemma: non-negative rationals summing to zero are all zero. -/
theorem sum_zero_forall_zero : ∀ (l : List ℚ), (∀ q ∈ l, 0 ≤ q) → l.sum = 0 →
    ∀ q ∈ l, q = 0 := by
  intro l
  induction l with
  | nil => intro _ _ q hq; exact absurd hq (List.not_mem_nil q)
  | cons a rest ih =>
    intro hnn hsum q hq
    have ha : 0 ≤ a := hnn a (List.mem_cons_self a rest)
    have hrnn : ∀ x ∈ rest, 0 ≤ x := fun x hx => hnn x (List.mem_cons_of_mem a hx)
    have hrs : 0 ≤ rest.sum := list_sum_nonneg rest hrnn
    rw [List.sum_cons] at hsum
    have ha0 : a = 0 := by linarith
    have hr0 : rest.sum = 0 := by linarith
    rcases List.mem_cons.mp hq with h1 | h1
    · rw [h1]
      exact ha0
    · exact ih hrnn hr0 q h1

/-- C4 (amended): only the empty distribution makes `get_avg_cost` fail with
ZeroDivisionError (two plain Python ints divided by zero); a non-empty
distribution whose non-negative counts sum to zero divides an `np.int64`
numerator by zero, so numpy returns nan with a RuntimeWarning instead of
raising; no EmptyDistributionError is raised in either case. -/
theorem C4_zero_total (counts : List (List Bool × ℚ)) (G : Graph) (p : ℤ)
    (hlen : ∀ kc ∈ counts, kc.1.length = G.n) (hz : totalCount counts = 0)
    (hnn : ∀ kc ∈ counts, 0 ≤ kc.2) :
    (counts = [] → get_avg_cost counts G p = .error .zeroDivisionError)
    ∧ (counts ≠ [] → get_avg_cost counts G p = .ok .nan) := by
  constructor
  · intro h
    subst h
    rfl
  · intro hne
    have hz2 : (counts.map fun kc => kc.2).sum = 0 := by
      have h := hz
      unfold totalCount at h
      exact h
    have hcz : ∀ kc ∈ counts, kc.2 = 0 := by
      intro kc hkc
      refine sum_zero_forall_zero (counts.map fun kc => kc.2) ?_ hz2 kc.2
        (List.mem_map_of_mem _ hkc)
      intro q hq
      obtain ⟨kc2, hkc2, hq2⟩ := List.mem_map.mp hq
      rw [← hq2]
      exact hnn kc2 hkc2
    have hlz : (counts.map fun kc => kc.2 * ((costVal kc.1 G p : ℤ) : ℚ)).sum = 0 := by
      refine List.sum_eq_zero ?_
      intro x hx
      obtain ⟨kc, hkc, hxe⟩ := List.mem_map.mp hx
      rw [← hxe, hcz kc hkc, zero_mul]
    unfold get_avg_cost
    rw [keyCosts_ok counts G p hlen]
    cases counts with
    | nil => exact absurd rfl hne
    | cons kc rest =>
      simp only [List.map_cons, List.sum_cons] at hlz
      simp [hz, hlz]

/-- Witness for C4 (amended): the non-empty zero-count distribution returns
nan, the empty distribution raises the division error. -/
theorem C4_witness :
    get_avg_cost [([false, false], 0)] ⟨2, [(0, 1)]⟩ 10 = .ok .nan
    ∧ get_avg_cost [] ⟨2, [(0, 1)]⟩ 10 = .error .zeroDivisionError := by
  have h1 := C4_zero_total [([false, false], 0)] ⟨2, [(0, 1)]⟩ 10 (by decide)
    (by norm_num [totalCount]) (by decide)
  have h0 := C4_zero_total [] ⟨2, [(0, 1)]⟩ 10 (by simp)
    (by norm_num [totalCount]) (by simp)
  exact ⟨h1.2 (by simp), h0.1 rfl⟩

/-- Helper lemma: scaling every count by `c` scales each weighted term by `c`. -/
theorem keyCosts_scale (counts : List (List Bool × ℚ)) (G : Graph) (p : ℤ) (c : ℚ) :
    keyCosts G p (counts.map fun kc => (kc.1, c * kc.2)) =
      (keyCosts G p counts).map (fun l => l.map (fun q => c * q)) := by
  induction counts with
  | nil => rfl
  | cons kc rest ih =>
    simp only [List.map_cons, keyCosts]
    cases hg : get_cost kc.1 G p with
    | error e => rfl
    | ok v =>
      rw [ih]
      cases hr : keyCosts G p rest with
      | error e => rfl
      | ok l => simp [Except.map, mul_assoc]

/-- Helper lemma: multiplying every list element by `c` multiplies the sum by `c`. -/
theorem sum_map_mul_const (l : List ℚ) (c : ℚ) :
    (l.map fun q => c * q).sum = c * l.sum := by
  induction l with
  | nil => simp
  | cons q qs ih => simp [ih, mul_add]

/-- Helper lemma: scaling every count by `c` scales the total count by `c`. -/
theorem totalCount_scale (counts : List (List Bool × ℚ)) (c : ℚ) :
    totalCount (counts.map fun kc => (kc.1, c * kc.2)) = c * totalCount counts := by
  induction counts with
  | nil => simp [totalCount]
  | cons kc rest ih =>
    simp only [totalCount, List.map_cons, List.sum_cons] at ih ⊢
    rw [mul_add, ih]

/-- C9: for every distribution with positive total count, scaling all counts
by the same positive constant leaves `get_avg_cost` unchanged. -/
theorem C9_scale_invariant (counts : List (List Bool × ℚ)) (G : Graph) (p : ℤ)
    (c : ℚ) (hc : 0 < c) (hpos : 0 < totalCount counts) :
    get_avg_cost (counts.map fun kc => (kc.1, c * kc.2)) G p
      = get_avg_cost counts G p := by
  have hc0 : c ≠ 0 := ne_of_gt hc
  have ht0 : totalCount counts ≠ 0 := ne_of_gt hpos
  have hct : c * totalCount counts ≠ 0 := mul_ne_zero hc0 ht0
  unfold get_avg_cost
  rw [keyCosts_scale counts G p c, totalCount_scale counts c]
  cases counts with
  | nil => exact absurd (by simp [totalCount]) ht0
  | cons kc rest =>
    cases hk : keyCosts G p (kc :: rest) with
    | error e => rfl
    | ok l =>
      simp only [Except.map, List.map_cons, hct, ht0, if_neg]
      rw [sum_map_mul_const l c,
        mul_div_mul_left l.sum (totalCount (kc :: rest)) hc0]
      simp

/-- Witness for C9: doubling the counts of a concrete distribution leaves
the expected cost unchanged. -/
theorem C9_witness :
    get_avg_cost [([true], 2)] ⟨1, []⟩ 5 = get_avg_cost [([true], 1)] ⟨1, []⟩ 5 := by
  have h := C9_scale_invariant [([true], 1)] ⟨1, []⟩ 5 2 (by norm_num)
    (by norm_num [totalCount])
  simpa using h

/-- Truncation toward zero, the behaviour of numpy `astype(int)` on a float
value. -/
def pyTrunc (q : ℚ) : ℤ :=
  if 0 ≤ q then ⌊q⌋ else ⌈q⌉

/-- Model of the codec step of `quantum_loop`:
`np.reshape(params.astype(int), 3)` casts the whole parameter array, all of
time, omega and detuning, to integers before the sequence is built; a
parameter array whose size is not 3 makes `np.reshape` raise ValueError. -/
def quantum_loop_params (parameters : List ℚ) : Except PyErr (ℤ × ℤ × ℤ) :=
  match parameters with
  | [t, om, det] => .ok (pyTrunc t, pyTrunc om, pyTrunc det)
  | _ => .error .valueError

/-- C3 counterexample: encoding parameters `(10000, 7/2, 5/2)` truncates the
amplitude to 3 and the detuning to 2, so the codec does round the amplitude
and detuning components, not just the time component. -/
theorem C3_counterexample :
    quantum_loop_params [10000, 7 / 2, 5 / 2] = .ok (10000, 3, 2)
    ∧ ((3 : ℚ) ≠ 7 / 2 ∧ (2 : ℚ) ≠ 5 / 2) := by
  refine ⟨?_, by norm_num, by norm_num⟩
  show Except.ok (pyTrunc 10000, pyTrunc (7 / 2), pyTrunc (5 / 2)) = _
  norm_num [pyTrunc]

/-- C3 (amended): the codec casts all three components, time, amplitude and
detuning, to integers by truncation toward zero before they reach the
sampler; the cast is the identity on whole values and is the floor on
non-negative values. -/
theorem C3_truncates_all (t om det : ℚ) :
    quantum_loop_params [t, om, det] = .ok (pyTrunc t, pyTrunc om, pyTrunc det)
    ∧ (∀ z : ℤ, pyTrunc (z : ℚ) = z)
    ∧ (∀ q : ℚ, 0 ≤ q → pyTrunc q = ⌊q⌋)
    ∧ (∀ q : ℚ, q < 0 → pyTrunc q = ⌈q⌉) := by
  refine ⟨rfl, ?_, ?_, ?_⟩
  · intro z
    by_cases h : (0 : ℚ) ≤ (z : ℚ) <;> simp [pyTrunc, h]
  · intro q h
    simp [pyTrunc, h]
  · intro q h
    simp [pyTrunc, not_le.mpr h]

/-- Witness for C3 (amended) at concrete inputs. -/
theorem C3_witness :
    quantum_loop_params [10000, 3, 5 / 2] = .ok (10000, 3, 2)
    ∧ pyTrunc ((7 : ℤ) : ℚ) = 7 := by
  have h := C3_truncates_all 10000 3 (5 / 2)
  refine ⟨h.1.trans ?_, h.2.1 7⟩
  norm_num [pyTrunc]

/-- A scipy objective value as stored in `scores`: either a finite value or
infinite (the non-finite outcome of a failed round). -/
inductive PyFloat where
  | fin : ℚ → PyFloat
  | inf : PyFloat
  deriving DecidableEq

/-- Strict comparison on objective values, as numpy compares them inside
`np.argmin`. -/
def PyFloat.lt : PyFloat → PyFloat → Bool
  | .fin a, .fin b => decide (a < b)
  | .fin _, .inf => true
  | .inf, _ => false

/-- Non-strict comparison on objective values. -/
def PyFloat.le : PyFloat → PyFloat → Bool
  | .fin a, .fin b => decide (a ≤ b)
  | .fin _, .inf => true
  | .inf, .fin _ => false
  | .inf, .inf => true

theorem PyFloat.le_refl (a : PyFloat) : a.le a = true := by
  cases a <;> simp [PyFloat.le]

theorem PyFloat.le_of_lt {a b : PyFloat} (h : a.lt b = true) : a.le b = true := by
  cases a <;> cases b <;> simp_all [PyFloat.lt, PyFloat.le]
  exact h.le

theorem PyFloat.le_of_not_lt {a b : PyFloat} (h : a.lt b = false) : b.le a = true := by
  cases a <;> cases b <;> simp_all [PyFloat.lt, PyFloat.le]

theorem PyFloat.le_trans {a b c : PyFloat} (h1 : a.le b = true) (h2 : b.le c = true) :
    a.le c = true := by
  cases a <;> cases b <;> cases c <;> simp_all [PyFloat.le]
  exact h1.trans h2

theorem PyFloat.lt_of_le_of_lt {a b c : PyFloat} (h1 : a.le b = true)
    (h2 : b.lt c = true) : a.lt c = true := by
  cases a <;> cases b <;> cases c <;> simp_all [PyFloat.le, PyFloat.lt]
  exact h1.trans_lt h2

theorem PyFloat.lt_of_lt_of_le {a b c : PyFloat} (h1 : a.lt b = true)
    (h2 : b.le c = true) : a.lt c = true := by
  cases a <;> cases b <;> cases c <;> simp_all [PyFloat.le, PyFloat.lt]
  exact h1.trans_le h2

/-- The round selected by `params[np.argmin(scores)]` from a non-empty list
of (final cost, final parameters) rounds: scanning left to right, the
current best is replaced only by a strictly smaller score, so the first
occurrence of the minimum wins. -/
def bestRound {P : Type} (r : PyFloat × P) : List (PyFloat × P) → PyFloat × P
  | [] => r
  | s :: ss => if s.1.lt r.1 then bestRound s ss else bestRound r ss

/-- Model of the selection performed by `VQAA`: given the per-round results
`(res.fun, res.x)` collected by the restart loop, return
`params[np.argmin(scores)]`.  With no rounds, `np.argmin` of an empty list
raises ValueError; there is no code path that raises anything once at least
one round exists. -/
def VQAA {P : Type} (rounds : List (PyFloat × P)) : Except PyErr P :=
  match rounds with
  | [] => .error .valueError
  | r :: rs => .ok (bestRound r rs).2

/-- Helper lemma: the selected round is one of the rounds. -/
theorem bestRound_mem {P : Type} (r : PyFloat × P) (rs : List (PyFloat × P)) :
    bestRound r rs ∈ r :: rs := by
  induction rs generalizing r with
  | nil => simp [bestRound]
  | cons s ss ih =>
    rw [bestRound]
    by_cases h : s.1.lt r.1 = true
    · rw [if_pos h]
      exact List.mem_cons_of_mem r (ih s)
    · rw [if_neg h]
      rcases List.mem_cons.mp (ih r) with h1 | h1
      · rw [h1]
        exact List.mem_cons_self r (s :: ss)
      · exact List.mem_cons_of_mem r (List.mem_cons_of_mem s h1)

/-- Helper lemma: the selected round has minimal cost among all rounds. -/
theorem bestRound_min {P : Type} (r : PyFloat × P) (rs : List (PyFloat × P)) :
    ∀ s ∈ r :: rs, ((bestRound r rs).1.le s.1) = true := by
  induction rs generalizing r with
  | nil =>
    intro s hs
    rcases List.mem_cons.mp hs with h1 | h1
    · rw [h1]
      exact PyFloat.le_refl (bestRound r []).1
    · exact absurd h1 (List.not_mem_nil s)
  | cons t ts ih =>
    intro s hs
    rw [bestRound]
    by_cases h : t.1.lt r.1 = true
    · rw [if_pos h]
      rcases List.mem_cons.mp hs with h1 | h1
      · rw [h1]
        have hbt := ih t t (List.mem_cons_self t ts)
        exact PyFloat.le_of_lt (PyFloat.lt_of_le_of_lt hbt h)
      · exact ih t s h1
    · rw [if_neg h]
      rcases List.mem_cons.mp hs with h1 | h1
      · rw [h1]
        exact ih r r (List.mem_cons_self r ts)
      · rcases List.mem_cons.mp h1 with h2 | h2


        · rw [h2]
          have hrt : r.1.le t.1 = true :=
            PyFloat.le_of_not_lt (Bool.eq_false_iff.mpr h)
          exact PyFloat.le_trans (ih r r (List.mem_cons_self r ts)) hrt
        · exact ih r s (List.mem_cons_of_mem r h2)

/-- Helper lemma: every round strictly preceding the selected round has a
strictly larger cost: the selected round is the first occurrence of the
minimum. -/
theorem bestRound_first {P : Type} (r : PyFloat × P) (rs : List (PyFloat × P)) :
    ∃ l1 l2, r :: rs = l1 ++ bestRound r rs :: l2
      ∧ ∀ s ∈ l1, ((bestRound r rs).1.lt s.1) = true := by
  induction rs generalizing r with
  | nil => exact ⟨[], [], rfl, by simp⟩
  | cons t ts ih =>
    by_cases h : t.1.lt r.1 = true
    · have hb : bestRound r (t :: ts) = bestRound t ts := by
        rw [bestRound, if_pos h]
      rw [hb]
      obtain ⟨l1, l2, heq, hstrict⟩ := ih t
      refine ⟨r :: l1, l2, ?_, ?_⟩
      · rw [List.cons_append, ← heq]
      · intro s hs
        rcases List.mem_cons.mp hs with h1 | h1
        · rw [h1]
          exact PyFloat.lt_of_le_of_lt (bestRound_min t ts t (List.mem_cons_self t ts)) h
        · exact hstrict s h1
    · have hb : bestRound r (t :: ts) = bestRound r ts := by
        rw [bestRound, if_neg h]
      rw [hb]
      obtain ⟨l1, l2, heq, hstrict⟩ := ih r
      cases l1 with
      | nil =>
        simp only [List.nil_append] at heq
        injection heq with h1 h2
        refine ⟨[], t :: l2, ?_, by simp⟩
        rw [List.nil_append, ← h1, h2]
      | cons a l1x =>
        simp only [List.cons_append] at heq
        injection heq with h1 h2
        have hstrict_r : ((bestRound r ts).1.lt r.1) = true := by
          have ha := hstrict a (List.mem_cons_self a l1x)
          rw [← h1] at ha
          exact ha
        refine ⟨r :: t :: l1x, l2, ?_, ?_⟩
        · rw [List.cons_append, List.cons_append, ← h2]
        · intro s hs
          rcases List.mem_cons.mp hs with hs1 | hs1
          · rw [hs1]
            exact hstrict_r
          · rcases List.mem_cons.mp hs1 with hs2 | hs2
            · rw [hs2]
              have hrt : r.1.le t.1 = true :=
                PyFloat.le_of_not_lt (Bool.eq_false_iff.mpr h)
              exact PyFloat.lt_of_lt_of_le hstrict_r hrt
            · exact hstrict s (List.mem_cons_of_mem a hs2)

/-- C6: the multi-start driver returns the parameters of the round with
minimum final cost; that round is one of the rounds, its cost is a lower
bound for all rounds, every round before it has strictly larger cost
(first-occurrence tie-breaking, and a strictly minimal round wins wherever
it sits), and with a single round that round is returned. -/
theorem C6_VQAA_argmin {P : Type} (r : PyFloat × P) (rs : List (PyFloat × P)) :
    VQAA (r :: rs) = .ok (bestRound r rs).2
    ∧ bestRound r rs ∈ r :: rs
    ∧ (∀ s ∈ r :: rs, ((bestRound r rs).1.le s.1) = true)
    ∧ (∃ l1 l2, r :: rs = l1 ++ bestRound r rs :: l2
        ∧ ∀ s ∈ l1, ((bestRound r rs).1.lt s.1) = true)
    ∧ VQAA [r] = .ok r.2 :=
  ⟨rfl, bestRound_mem r rs, bestRound_min r rs, bestRound_first r rs, rfl⟩

/-- Witness for C6: the strictly smaller second round wins even though it is
not first, and a single round returns its own parameters. -/
theorem C6_witness :
    VQAA [(PyFloat.fin 5, (1 : ℕ)), (PyFloat.fin 3, 2)] = .ok 2
    ∧ VQAA [(PyFloat.fin 7, (9 : ℕ))] = .ok 9 := by
  have h1 := C6_VQAA_argmin (PyFloat.fin 5, (1 : ℕ)) [(PyFloat.fin 3, 2)]
  have h2 := C6_VQAA_argmin (PyFloat.fin 7, (9 : ℕ)) []
  exact ⟨h1.1.trans (by norm_num [bestRound, PyFloat.lt]), h2.2.2.2.2⟩

/-- Helper lemma: with every round cost infinite, no round ever strictly
improves on the running best, so the first round is selected. -/
theorem bestRound_all_inf {P : Type} :
    ∀ (r : PyFloat × P) (rs : List (PyFloat × P)),
      (∀ s ∈ r :: rs, s.1 = PyFloat.inf) → bestRound r rs = r := by
  intro r rs
  induction rs generalizing r with
  | nil => intro _; rfl
  | cons t ts ih =>
    intro h
    have ht : t.1 = PyFloat.inf := h t (List.mem_cons_of_mem r (List.mem_cons_self t ts))
    have hlt : t.1.lt r.1 = false := by
      rw [ht]
      rfl
    rw [bestRound, if_neg (by simp [hlt])]
    refine ih r ?_
    intro s hs
    rcases List.mem_cons.mp hs with h1 | h1
    · rw [h1]
      exact h r (List.mem_cons_self r (t :: ts))
    · exact h s (List.mem_cons_of_mem r (List.mem_cons_of_mem t h1))

/-- C7 counterexample: with both round costs infinite (no finite objective
anywhere), `VQAA` silently returns the first round parameters instead of
raising a NoConvergenceError. -/
theorem C7_counterexample :
    VQAA [(PyFloat.inf, (1 : ℕ)), (PyFloat.inf, 2)] = .ok 1
    ∧ VQAA [(PyFloat.inf, (1 : ℕ)), (PyFloat.inf, 2)]
        ≠ .error PyErr.noConvergenceError := by
  refine ⟨rfl, ?_⟩
  intro h
  simp [VQAA, bestRound, PyFloat.lt] at h

/-- C7 (amended): when every restart round has a non-finite (infinite) final
cost, the driver silently returns the first round parameters, the argmin
of an all-infinite score list; it raises no error at all, and in particular
no NoConvergenceError. -/
theorem C7_all_infinite {P : Type} (r : PyFloat × P) (rs : List (PyFloat × P))
    (h : ∀ s ∈ r :: rs, s.1 = PyFloat.inf) :
    VQAA (r :: rs) = .ok r.2 ∧ ∀ e : PyErr, VQAA (r :: rs) ≠ .error e := by
  have hb := bestRound_all_inf r rs h
  constructor
  · simp [VQAA, hb]
  · intro e he
    simp [VQAA] at he

/-- Witness for C7 (amended): a single all-infinite round. -/
theorem C7_witness :
    VQAA [(PyFloat.inf, (3 : ℕ))] = .ok 3
    ∧ VQAA [(PyFloat.inf, (3 : ℕ))] ≠ .error PyErr.noConvergenceError := by
  have h := C7_all_infinite (PyFloat.inf, (3 : ℕ)) [] (by decide)
  exact ⟨h.1, h.2 PyErr.noConvergenceError⟩

/-- Model of `dict(sorted(counts.items(), key=lambda item: item[1], reverse=True))`:
a stable sort of the count entries by descending frequency (Python
`sorted` is stable, so entries with equal counts keep their original
order, which is what a stable insertion sort produces). -/
def sortDesc (counts : List (List Bool × ℕ)) : List (List Bool × ℕ) :=
  List.insertionSort (fun a b => b.2 ≤ a.2) counts

/-- Model of the decoding loop of `solver_VQAA`: walk the bitstring with a
position counter starting at `i`, appending `atomic_register.qubit_ids[element]`
for every bit equal to 1; a selected position beyond the register raises
IndexError. -/
def decodeAux {α : Type} (ids : List α) : List Bool → ℕ → Except PyErr (List α)
  | [], _ => .ok []
  | b :: bs, i =>
    if b then
      match ids[i]? with
      | some x =>
        match decodeAux ids bs (i + 1) with
        | .error e => .error e
        | .ok l => .ok (x :: l)
      | none => .error .indexError
    else
      decodeAux ids bs (i + 1)

/-- Decoding of one bitstring into the selected register identifiers. -/
def decodeBits {α : Type} (bits : List Bool) (ids : List α) : Except PyErr (List α) :=
  decodeAux ids bits 0

/-- The decoding loop applied to each of the selected bitstrings in order. -/
def mapDecode {α : Type} (ids : List α) :
    List (List Bool × ℕ) → Except PyErr (List (List α))
  | [] => .ok []
  | kc :: rest =>
    match decodeBits kc.1 ids with
    | .error e => .error e
    | .ok l =>
      match mapDecode ids rest with
      | .error e => .error e
      | .ok ls => .ok (l :: ls)

/-- Model of the solution extraction of `solver_VQAA`: sort the counts by
descending frequency, take the first `number_best_solutions` bitstrings
(`islice`), and decode each one. -/
def solver_VQAA_solutions {α : Type} (counts : List (List Bool × ℕ)) (ids : List α)
    (top_k : ℕ) : Except PyErr (List (List α)) :=
  mapDecode ids ((sortDesc counts).take top_k)

/-- Helper lemma: a successfully decoded list is a sublist of the register
ids dropped below the starting position: selected identifiers appear in
ascending position order. -/
theorem decodeAux_sublist {α : Type} (ids : List α) :
    ∀ (bits : List Bool) (i : ℕ) (l : List α),
      decodeAux ids bits i = .ok l → List.Sublist l (ids.drop i) := by
  intro bits
  induction bits with
  | nil =>
    intro i l h
    simp only [decodeAux] at h
    injection h with h1
    rw [← h1]
    exact List.nil_sublist _
  | cons b bs ih =>
    intro i l h
    have hstep : List.Sublist (ids.drop (i + 1)) (ids.drop i) := by
      rw [← List.drop_drop 1 i ids]
      exact List.drop_sublist 1 (ids.drop i)
    cases b with
    | false =>
      simp only [decodeAux, if_neg] at h
      exact (ih (i + 1) l h).trans hstep
    | true =>
      simp only [decodeAux, if_pos] at h
      cases hx : ids[i]? with
      | none => rw [hx] at h; cases h
      | some x =>
        rw [hx] at h
        cases hr : decodeAux ids bs (i + 1) with
        | error e => rw [hr] at h; cases h
        | ok lx =>
          rw [hr] at h
          injection h with h1
          have hi : i < ids.length := by
            by_contra hge
            rw [List.getElem?_eq_none (by omega)] at hx
            cases hx
          have hxval : ids[i]? = some (ids.get ⟨i, hi⟩) := List.getElem?_eq_getElem hi
          rw [hxval] at hx
          injection hx with hx1
          rw [← h1, ← hx1, List.drop_eq_getElem_cons hi]
          exact List.Sublist.cons₂ _ (ih (i + 1) lx hr)

/-- Helper lemma: decoding succeeds whenever the bitstring fits inside the
register. -/
theorem decodeAux_isOk {α : Type} (ids : List α) :
    ∀ (bits : List Bool) (i : ℕ), i + bits.length ≤ ids.length →
      ∃ l, decodeAux ids bits i = .ok l := by
  intro bits
  induction bits with
  | nil => exact fun i _ => ⟨[], rfl⟩
  | cons b bs ih =>
    intro i hle
    have hi : i < ids.length := by
      simp only [List.length_cons] at hle
      omega
    have hnext : i + 1 + bs.length ≤ ids.length := by
      simp only [List.length_cons] at hle
      omega
    obtain ⟨l, hl⟩ := ih (i + 1) hnext
    cases b with
    | false => exact ⟨l, by simp only [decodeAux, if_neg]; exact hl⟩
    | true =>
      refine ⟨ids.get ⟨i, hi⟩ :: l, ?_⟩
      simp only [decodeAux, if_pos, List.getElem?_eq_getElem hi, hl]
      rfl

/-- Helper lemma: a run of zero bits decodes to nothing, from any position. -/
theorem decodeAux_replicate_false {α : Type} (ids : List α) :
    ∀ (m j : ℕ), decodeAux ids (List.replicate m false) j = .ok [] := by
  intro m
  induction m with
  | zero => intro j; rfl
  | succ mm ih =>
    intro j
    rw [List.replicate_succ]
    simp only [decodeAux, if_neg]
    exact ih (j + 1)

/-- Helper lemma: a bitstring with a single 1 at offset `i` from position `j`
decodes to exactly the register identifier at index `j + i`. -/
theorem decodeAux_oneHot {α : Type} (ids : List α) (m : ℕ) :
    ∀ (i j : ℕ) (h : j + i < ids.length),
      decodeAux ids (List.replicate i false ++ true :: List.replicate m false) j
        = .ok [ids.get ⟨j + i, h⟩] := by
  intro i
  induction i with
  | zero =>
    intro j h
    simp only [List.replicate, List.nil_append, decodeAux, if_pos,
      List.getElem?_eq_getElem (show j < ids.length by omega),
      decodeAux_replicate_false ids m (j + 1)]
    rfl
  | succ ii ih =>
    intro j h
    have h1 : j + 1 + ii < ids.length := by omega
    rw [List.replicate_succ, List.cons_append]
    simp only [decodeAux, if_neg]
    rw [ih (j + 1) h1]
    exact congrArg (fun f => Except.ok [ids.get f])
      (Fin.ext (show j + 1 + ii = j + (ii + 1) by omega))

/-- Helper lemma: when every selected bitstring decodes, the whole decoding
loop succeeds and yields one solution per bitstring. -/
theorem mapDecode_ok {α : Type} (ids : List α) (L : List (List Bool × ℕ))
    (h : ∀ kc ∈ L, ∃ l, decodeBits kc.1 ids = .ok l) :
    ∃ ls, mapDecode ids L = .ok ls ∧ ls.length = L.length := by
  induction L with
  | nil => exact ⟨[], rfl, rfl⟩
  | cons kc rest ih =>
    obtain ⟨l, hl⟩ := h kc (List.mem_cons_self kc rest)
    obtain ⟨ls, hls, hlslen⟩ := ih (fun x hx => h x (List.mem_cons_of_mem kc hx))
    refine ⟨l :: ls, ?_, by simp [hlslen]⟩
    simp only [mapDecode, hl, hls]

/-- Helper lemma: every solution produced by the decoding loop is the
decoding of one of the selected bitstrings. -/
theorem mapDecode_mem {α : Type} (ids : List α) (L : List (List Bool × ℕ)) :
    ∀ (ls : List (List α)), mapDecode ids L = .ok ls →
      ∀ s ∈ ls, ∃ kc ∈ L, decodeBits kc.1 ids = .ok s := by
  induction L with
  | nil =>
    intro ls h s hs
    simp only [mapDecode] at h
    injection h with h1
    rw [← h1] at hs
    exact absurd hs (List.not_mem_nil s)
  | cons kc rest ih =>
    intro ls h s hs
    simp only [mapDecode] at h
    cases hd : decodeBits kc.1 ids with
    | error e => rw [hd] at h; cases h
    | ok l =>
      rw [hd] at h
      cases hr : mapDecode ids rest with
      | error e => rw [hr] at h; cases h
      | ok lsr =>
        rw [hr] at h
        injection h with h1
        rw [← h1] at hs
        rcases List.mem_cons.mp hs with hs1 | hs1
        · exact ⟨kc, List.mem_cons_self kc rest, hs1 ▸ hd⟩
        · obtain ⟨kc2, hkc2, hdec2⟩ := ih lsr hr s hs1
          exact ⟨kc2, List.mem_cons_of_mem kc hkc2, hdec2⟩

/-- C5: the extractor sorts the distribution by descending frequency (the
sorted list is a permutation of the input, pairwise ordered by count),
takes the first `top_k` entries and decodes each one; an oversized `top_k`
yields `counts.length` solutions rather than an error; a bitstring with a
single 1 at position `i` decodes to exactly `register[i]`; and on the
distribution 700/300 over "10"/"01" with register [A, B] and `top_k = 2`
the solutions are [[A], [B]] in that order. -/
theorem C5_extract {α : Type} (counts : List (List Bool × ℕ)) (ids : List α) (k : ℕ)
    (hlen : ∀ kc ∈ counts, kc.1.length = ids.length) :
    (∃ sols, solver_VQAA_solutions counts ids k = .ok sols
      ∧ sols.length = min k counts.length)
    ∧ List.Sorted (fun a b : List Bool × ℕ => b.2 ≤ a.2) (sortDesc counts)
    ∧ List.Perm (sortDesc counts) counts
    ∧ (∀ (i m : ℕ) (h : i < ids.length),
        decodeBits (List.replicate i false ++ true :: List.replicate m false) ids
          = .ok [ids.get ⟨i, h⟩])
    ∧ solver_VQAA_solutions [([true, false], 700), ([false, true], 300)]
        ["A", "B"] 2 = .ok [["A"], ["B"]] := by
  have hperm : List.Perm (sortDesc counts) counts :=
    List.perm_insertionSort _ counts
  refine ⟨?_, ?_, hperm, ?_, ?_⟩
  · have hdec : ∀ kc ∈ (sortDesc counts).take k, ∃ l, decodeBits kc.1 ids = .ok l := by
      intro kc hkc
      have h2 : kc ∈ counts := hperm.subset (List.mem_of_mem_take hkc)
      have h3 := hlen kc h2
      exact decodeAux_isOk ids kc.1 0 (by omega)
    obtain ⟨ls, hls, hlslen⟩ := mapDecode_ok ids _ hdec
    refine ⟨ls, hls, ?_⟩
    rw [hlslen, List.length_take]
    simp [sortDesc]
  · haveI ht : IsTotal (List Bool × ℕ) (fun a b => b.2 ≤ a.2) :=
      ⟨fun a b => le_total b.2 a.2⟩
    haveI htr : IsTrans (List Bool × ℕ) (fun a b => b.2 ≤ a.2) :=
      ⟨fun a b c h1 h2 => le_trans h2 h1⟩
    exact List.sorted_insertionSort _ counts
  · intro i m h
    have := decodeAux_oneHot ids m i 0 (by omega)
    simpa [decodeBits] using this
  · decide

/-- Witness for C5: the concrete distribution of the specification with an
oversized `top_k = 5` yields both solutions and no error, and `top_k = 2`
yields [[A], [B]]. -/
theorem C5_witness :
    (∃ sols, solver_VQAA_solutions [([true, false], 700), ([false, true], 300)]
      ["A", "B"] 5 = .ok sols ∧ sols.length = 2)
    ∧ solver_VQAA_solutions [([true, false], 700), ([false, true], 300)]
        ["A", "B"] 2 = .ok [["A"], ["B"]] := by
  have h5 := C5_extract [([true, false], 700), ([false, true], 300)] ["A", "B"] 5
    (by decide)
  have h2 := C5_extract [([true, false], 700), ([false, true], 300)] ["A", "B"] 2
    (by decide)
  exact ⟨by simpa using h5.1, h2.2.2.2.2⟩

/-- C10: every decoded solution returned by the extractor is a sublist of
the register id sequence: identifiers appear in ascending bit-position
order, whatever the frequency rank of the bitstring. -/
theorem C10_solution_order {α : Type} (counts : List (List Bool × ℕ)) (ids : List α)
    (k : ℕ) (sols : List (List α))
    (h : solver_VQAA_solutions counts ids k = .ok sols) :
    ∀ s ∈ sols, List.Sublist s ids := by
  intro s hs
  obtain ⟨kc, _, hdec⟩ := mapDecode_mem ids _ sols h s hs
  have hsub := decodeAux_sublist ids kc.1 0 s hdec
  simpa using hsub

/-- Witness for C10: the lower-frequency bitstring "01" still decodes in
register order. -/
theorem C10_witness : List.Sublist ["B"] ["A", "B"] :=
  C10_solution_order [([true, false], 700), ([false, true], 300)] ["A", "B"] 2
    [["A"], ["B"]] (by decide) ["B"] (by decide)

end QuantumDocking
